import Mathlib

/-!
Shallow embedding of the transliteration core of `check_cross_lingual_phoneme_map`
(`src/check_epitran_openjtalk.py` and `src/check_custom_epitran.py`).

Python strings are sequences of Unicode code points, embedded as `List Char`.
Unicode normalization (`unicodedata.normalize`) and the post-processing rule
engine (`epitran.rules.Rules`, an external library) are kept abstract as
function parameters of the engine; everything else is translated directly from
the source.
-/

namespace CrossLingual

/-- A Python string: a sequence of Unicode code points. -/
abbrev Str := List Char

/-- The unmatched-symbol tally `self.nils` (`defaultdict(int)`): an
insertion-ordered association list from character to occurrence count,
mirroring Python dict semantics. -/
abbrev Tally := List (Char × Nat)

/-- Embeds `self.nils[c] += 1` on a `defaultdict(int)`: update in place if the
key is present, otherwise append the key at the end with count 1. -/
def bump : Tally → Char → Tally
  | [], c => [(c, 1)]
  | (d, n) :: rest, c => if d = c then (d, n + 1) :: rest else (d, n) :: bump rest c

/-- Reads a count out of the tally (0 when absent, as for `defaultdict(int)`). -/
def tallyGet : Tally → Char → Nat
  | [], _ => 0
  | (d, n) :: rest, c => if d = c then n else tallyGet rest c

/-- The five tone-marker code points of the character class `[˩˨˧˦˥]` in
`_load_g2p_map`. -/
def toneMarkers : List Char := ['˩', '˨', '˧', '˦', '˥']

/-- Embeds `regex.sub("[˩˨˧˦˥]", "", phon)`: delete every tone-marker code
point. -/
def stripTones (s : Str) : Str := s.filter (fun c => !toneMarkers.contains c)

/-- Processing applied to the `Phon` column of one CSV row in `_load_g2p_map`:
NFD normalization, then tone stripping when `self.tones` is false. -/
def procPhon (nfd : Str → Str) (tones : Bool) (phon : Str) : Str :=
  if tones then nfd phon else stripTones (nfd phon)

/-- Embeds `g2p[graph].append(phon)` on a `defaultdict(list)`: the mapping is
an insertion-ordered association list; a new key is appended at the end with a
singleton target list, an existing key has the target appended to its list. -/
def insertG2p (g2p : List (Str × List Str)) (k : Str) (t : Str) : List (Str × List Str) :=
  match g2p with
  | [] => [(k, [t])]
  | (k', ts) :: rest =>
    if k' = k then (k', ts ++ [t]) :: rest else (k', ts) :: insertG2p rest k t

/-- Dictionary lookup in the g2p mapping; `[]` when the key is absent
(matching `defaultdict(list)`). -/
def lookupG2p : List (Str × List Str) → Str → List Str
  | [], _ => []
  | (k, ts) :: rest, src => if k = src then ts else lookupG2p rest src

/-- Embeds the row loop of `OpenJTalkLabelEpitran._load_g2p_map`: each CSV row
`(graph, phon)` (rows with fewer than two fields are already skipped) has both
fields NFD-normalized, the target tone-stripped when tones are disabled, and is
inserted into the mapping in file order. -/
def load_g2p_map (nfd : Str → Str) (tones : Bool) (rows : List (Str × Str)) :
    List (Str × List Str) :=
  rows.foldl (fun acc r => insertG2p acc (nfd r.1) (procPhon nfd tones r.2)) []

/-- Embeds the `os.path.exists` guard of `OpenJTalkLabelEpitran._load_g2p_map`:
a missing backing file yields the empty mapping, not an error. -/
def load_g2p_map_file (nfd : Str → Str) (tones : Bool) (fileExists : Bool)
    (rows : List (Str × Str)) : List (Str × List Str) :=
  if fileExists then load_g2p_map nfd tones rows else []

/-- One step of a stable insertion into a list sorted by descending code-point
length: a new element is placed after all elements of greater or equal length. -/
def insertDesc (x : Str) : List Str → List Str
  | [] => [x]
  | y :: ys => if y.length < x.length then x :: y :: ys else y :: insertDesc x ys

/-- Embeds `sorted(g2p_keys, key=len, reverse=True)` in `_construct_regex`:
a stable sort by descending code-point length (ties keep insertion order). -/
def sortedGraphemes (keys : List Str) : List Str :=
  keys.foldl (fun acc x => insertDesc x acc) []

/-- Embeds `self.regexp.match(text)` for the pattern built by
`OpenJTalkLabelEpitran._construct_regex`. With a non-empty key set the pattern
is the alternation of the escaped keys in descending-length order, so an
anchored match returns the first key in that order that is a literal prefix of
the text. With an empty key set the pattern is the fallback `(.)`, which
matches exactly one character unless the text is empty or starts with a
newline (`.` does not match `\n`). -/
def regexpMatch (sortedKeys : List Str) (text : Str) : Option Str :=
  match sortedKeys with
  | [] =>
    match text with
    | [] => none
    | c :: _ => if c = '\n' then none else some [c]
  | _ => sortedKeys.find? (fun k => k.isPrefixOf text)

/-- Embeds `target = self.g2p[source][0]` with
`except (KeyError, IndexError): target = source`: the first target when the
lookup list is non-empty, otherwise the source itself. -/
def lookupTarget (g2p : List (Str × List Str)) (src : Str) : Str :=
  match lookupG2p g2p src with
  | [] => src
  | t :: _ => t

/-- Embeds the `while text:` loop of `OpenJTalkLabelEpitran.general_trans`.
On a regex hit the matched source is consumed and a matched pair
`(target, True)` is emitted; on a miss one character is consumed, an unmatched
pair `(char, False)` is emitted and the tally is bumped. The loop need not
terminate for arbitrary key sets (an empty-string key consumes nothing), so it
is run on fuel; `none` models divergence. -/
def transLoop (keys : List Str) (g2p : List (Str × List Str)) :
    Nat → Str → Tally → Option (List (Str × Bool) × Tally)
  | _, [], nils => some ([], nils)
  | 0, _ :: _, _ => none
  | fuel + 1, c :: rest, nils =>
    match regexpMatch keys (c :: rest) with
    | some source =>
      (transLoop keys g2p fuel ((c :: rest).drop source.length) nils).map
        (fun r => ((lookupTarget g2p source, true) :: r.1, r.2))
    | none =>
      (transLoop keys g2p fuel rest (bump nils c)).map
        (fun r => (([c], false) :: r.1, r.2))

/-- An `OpenJTalkLabelEpitran` instance after construction. `nfd` and `nfc`
stand for `unicodedata.normalize("NFD", ·)` / `("NFC", ·)`; `post` is the
optional post-processor (`epitran.rules.Rules.apply`); `g2p` is the loaded
mapping; `mapFile` identifies `self._custom_map_file`. The class always passes
`preproc=False`, so no pre-processor field is needed, and all repository call
sites leave `normpunc`/`ligatures` at their `False` defaults. -/
structure Engine where
  nfd : Str → Str
  nfc : Str → Str
  post : Option (Str → Str)
  g2p : List (Str × List Str)
  mapFile : Str

/-- The precompiled `self.regexp` key list: the g2p keys in descending-length
order, fixed at construction time. -/
def Engine.keys (e : Engine) : List Str := sortedGraphemes (e.g2p.map Prod.fst)

/-- Embeds `"".join(...)`: concatenation of the kept targets. -/
def joinTargets (pairs : List (Str × Bool)) : Str := (pairs.map Prod.fst).flatten

/-- Embeds the optional `self.postprocessor.process(text)` call. -/
def applyPost (post : Option (Str → Str)) (s : Str) : Str :=
  match post with
  | none => s
  | some f => f s

/-- Embeds `OpenJTalkLabelEpitran.general_trans` (with the defaults
`normpunc=False`, `ligatures=False` used at every repository call site, and no
pre-processor since the class is constructed with `preproc=False`): NFD
normalization of the input, the tokenization loop starting from the current
instance tally, filtering and concatenation of the targets, the optional
post-processor, and final NFC normalization. `none` models divergence of the
loop. -/
def general_trans (e : Engine) (filterF : Str × Bool → Bool) (nils0 : Tally)
    (text : Str) : Option (Str × Tally) :=
  let t := e.nfd text
  (transLoop e.keys e.g2p t.length t nils0).map
    (fun r => (e.nfc (applyPost e.post (joinTargets (r.1.filter filterF))), r.2))

/-- The data carried by the `ValueError` raised in
`OpenJTalkLabelEpitran.transliterate`: the non-space unmatched symbols with
their counts, the original input text, and the mapping-file identity. -/
structure UnknownLabelError where
  unknown : Tally
  input : Str
  mapFile : Str
deriving DecidableEq, Repr

/-- Embeds `OpenJTalkLabelEpitran.transliterate`. The instance tally `nils` is
cleared at the start (`self.nils.clear()`); `super().transliterate` dispatches
back to the overridden `general_trans` with an all-accepting filter; afterwards
the tally restricted to non-space symbols is inspected and, when non-empty, a
`ValueError` carrying the offending symbols with counts, the original input and
the mapping file is raised instead of returning the result. The second
component is the instance tally as left after the call. -/
def transliterate (e : Engine) (nils : Tally) (text : Str) :
    Option (Except UnknownLabelError Str × Tally) :=
  let nils := ([] : Tally)
  (general_trans e (fun _ => true) nils text).map
    (fun r =>
      let unknown := r.2.filter (fun p => p.1 != ' ')
      if unknown = [] then (Except.ok r.1, r.2)
      else (Except.error ⟨unknown, text, e.mapFile⟩, r.2))

/-- Modelled from the spec: `SimpleEpitran.transliterate`, the method
`CustomEpitran` inherits unchanged (the epitran base class is not under
`src/`). Per the spec's pipeline description it dispatches to the tokenization
loop with an all-accepting filter, and it performs no clearing of the
instance-level unmatched-symbol tally (the spec's design notes record the
shared mutable counter of the prior art; the explicit `self.nils.clear()` added
by the `OpenJTalkLabelEpitran` override is the validating variant's fix). The
case-folding differences of the inherited matcher are immaterial for the
inputs considered here and are absorbed into the engine's normalization
parameters. -/
def customTransliterate (e : Engine) (nils : Tally) (text : Str) :
    Option (Str × Tally) :=
  general_trans e (fun _ => true) nils text

/-- Embeds Python's `phoneme_labels.split(" ")`: split at every single space,
keeping empty pieces (the empty string splits to one empty piece). -/
def splitOnSpace : Str → List Str
  | [] => [[]]
  | c :: rest =>
    if c = ' ' then [] :: splitOnSpace rest
    else
      match splitOnSpace rest with
      | [] => [[c]]
      | p :: ps => (c :: p) :: ps

/-- Embeds Python's `" ".join(...)`: the pieces concatenated with a single
space between consecutive pieces and none at either end. -/
def joinSpace : List Str → Str
  | [] => []
  | [s] => s
  | s :: t :: rest => s ++ ' ' :: joinSpace (t :: rest)

/-- Embeds the delimiter test `phoneme == "pau" or phoneme == "sil"` of
`split_by_silence_markers`. -/
def isSilence (p : Str) : Bool := p == "pau".data || p == "sil".data

/-- Embeds the `for phoneme in phonemes:` loop of `split_by_silence_markers`
with its pending `current_segment` accumulator: a delimiter flushes the
accumulator (only when non-empty) as a joined segment; any other label is
appended to the accumulator; the trailing accumulator is flushed at the end. -/
def splitLoop : List Str → List Str → List Str
  | [], cur => if cur.isEmpty then [] else [joinSpace cur]
  | p :: rest, cur =>
    if isSilence p then
      (if cur.isEmpty then [] else [joinSpace cur]) ++ splitLoop rest []
    else
      splitLoop rest (cur ++ [p])

/-- Embeds `split_by_silence_markers`: split the space-separated label string
and group the labels between `pau`/`sil` delimiters into joined segments. -/
def split_by_silence_markers (s : Str) : List Str := splitLoop (splitOnSpace s) []

/-- Embeds `segment.replace(" ", "")` in `phoneme_labels_to_ipa`. -/
def removeSpaces (s : Str) : Str := s.filter (fun c => c != ' ')

/-- Embeds the `for segment in segments:` loop of `phoneme_labels_to_ipa`:
each segment has its spaces removed and, when non-empty, is transliterated by
the singleton engine (whose validating `transliterate` always starts from a
cleared tally); a raised `ValueError` propagates out of the loop; the
successful per-segment outputs are collected in order. -/
def ipaSegments (e : Engine) : List Str → Option (Except UnknownLabelError (List Str))
  | [] => some (Except.ok [])
  | seg :: rest =>
    if (removeSpaces seg).isEmpty then ipaSegments e rest
    else
      match transliterate e [] (removeSpaces seg) with
      | none => none
      | some (Except.error err, _) => some (Except.error err)
      | some (Except.ok ipa, _) =>
        (ipaSegments e rest).map (fun r => r.map (fun ls => ipa :: ls))

/-- Embeds `phoneme_labels_to_ipa`: split on the silence markers,
transliterate each non-empty segment, and join the results with a single
space. -/
def phoneme_labels_to_ipa (e : Engine) (s : Str) : Option (Except UnknownLabelError Str) :=
  (ipaSegments e (split_by_silence_markers s)).map (fun r => r.map joinSpace)

/-- Spec-side definition, following the spec's words for comparison with the
code's `split_by_silence_markers`: cut the token list at every delimiter
occurrence, keeping the (possibly empty) gaps between consecutive cuts. -/
def runsSplit (isDelim : Str → Bool) : List Str → List (List Str)
  | [] => [[]]
  | x :: xs =>
    if isDelim x then [] :: runsSplit isDelim xs
    else (runsSplit isDelim xs).modifyHead (x :: ·)

/-- Spec-side definition: the maximal runs of tokens containing no delimiter,
with the zero-length gaps produced by adjacent, leading or trailing delimiters
dropped. -/
def specSegments (isDelim : Str → Bool) (ls : List Str) : List (List Str) :=
  (runsSplit isDelim ls).filter (fun r => !r.isEmpty)

/-- Shorthand turning a Lean string literal into the code-point list it
embeds. -/
def strL (s : String) : Str := s.data

/-! Helper lemmas about the tally, the sorted key list and anchored matching. -/

theorem tallyGet_bump_self (t : Tally) (c : Char) :
    tallyGet (bump t c) c = tallyGet t c + 1 := by
  induction t with
  | nil => simp [bump, tallyGet]
  | cons p rest ih =>
    obtain ⟨d, n⟩ := p
    by_cases h : d = c
    · simp [bump, tallyGet, h]
    · simp [bump, tallyGet, h, ih]

theorem tallyGet_bump_ne (t : Tally) (c c' : Char) (h : c' ≠ c) :
    tallyGet (bump t c) c' = tallyGet t c' := by
  induction t with
  | nil => simp [bump, tallyGet, Ne.symm h]
  | cons p rest ih =>
    obtain ⟨d, n⟩ := p
    by_cases hd : d = c
    · subst hd
      simp [bump, tallyGet, Ne.symm h]
    · simp [bump, tallyGet, hd, ih]

theorem mem_insertDesc {a x : Str} : ∀ {l : List Str}, a ∈ insertDesc x l ↔ a = x ∨ a ∈ l
  | [] => by simp [insertDesc]
  | y :: ys => by
    by_cases h : y.length < x.length
    · simp [insertDesc, h]
    · simp only [insertDesc, if_neg h, List.mem_cons, mem_insertDesc (l := ys)]
      tauto

theorem mem_foldl_insertDesc {a : Str} :
    ∀ (ks : List Str) (acc : List Str),
      a ∈ ks.foldl (fun acc x => insertDesc x acc) acc ↔ a ∈ acc ∨ a ∈ ks
  | [], acc => by simp
  | x :: ks, acc => by
    simp only [List.foldl_cons, mem_foldl_insertDesc ks, mem_insertDesc, List.mem_cons]
    tauto

theorem mem_sortedGraphemes {a : Str} {ks : List Str} :
    a ∈ sortedGraphemes ks ↔ a ∈ ks := by
  simp [sortedGraphemes, mem_foldl_insertDesc]

theorem pairwise_insertDesc {x : Str} :
    ∀ {l : List Str}, l.Pairwise (fun a b => b.length ≤ a.length) →
      (insertDesc x l).Pairwise (fun a b => b.length ≤ a.length)
  | [], _ => by simp [insertDesc]
  | y :: ys, h => by
    rw [List.pairwise_cons] at h
    by_cases hl : y.length < x.length
    · rw [insertDesc, if_pos hl]
      refine List.Pairwise.cons ?_ (List.Pairwise.cons h.1 h.2)
      intro z hz
      rcases List.mem_cons.mp hz with rfl | hz
      · exact Nat.le_of_lt hl
      · exact Nat.le_trans (h.1 z hz) (Nat.le_of_lt hl)
    · rw [insertDesc, if_neg hl]
      refine List.Pairwise.cons ?_ (pairwise_insertDesc h.2)
      intro z hz
      rcases mem_insertDesc.mp hz with rfl | hz
      · exact Nat.le_of_not_lt hl
      · exact h.1 z hz

theorem pairwise_foldl_insertDesc :
    ∀ (ks : List Str) (acc : List Str),
      acc.Pairwise (fun a b => b.length ≤ a.length) →
      (ks.foldl (fun acc x => insertDesc x acc) acc).Pairwise
        (fun a b => b.length ≤ a.length)
  | [], _, h => h
  | x :: ks, acc, h => pairwise_foldl_insertDesc ks _ (pairwise_insertDesc h)

theorem pairwise_sortedGraphemes (ks : List Str) :
    (sortedGraphemes ks).Pairwise (fun a b => b.length ≤ a.length) :=
  pairwise_foldl_insertDesc ks [] (List.Pairwise.nil)

theorem sortedGraphemes_ne_nil {ks : List Str} (h : ks ≠ []) :
    sortedGraphemes ks ≠ [] := by
  obtain ⟨k, ks', rfl⟩ := List.exists_cons_of_ne_nil h
  intro hnil
  have : k ∈ sortedGraphemes (k :: ks') := mem_sortedGraphemes.mpr (List.mem_cons_self k ks')
  rw [hnil] at this
  exact List.not_mem_nil k this

theorem find?_isPrefixOf_maximal {text : Str} :
    ∀ {l : List Str} {k : Str},
      l.Pairwise (fun a b => b.length ≤ a.length) →
      l.find? (fun k => k.isPrefixOf text) = some k →
      ∀ k' ∈ l, k'.isPrefixOf text = true → k'.length ≤ k.length := by
  intro l
  induction l with
  | nil => intro k _ hf; simp [List.find?] at hf
  | cons h t ih =>
    intro k hpw hf k' hk' hpre
    rw [List.pairwise_cons] at hpw
    by_cases hp : h.isPrefixOf text = true
    · rw [List.find?_cons_of_pos (p := fun x : Str => List.isPrefixOf x text) _ hp] at hf
      injection hf with hf
      subst hf
      rcases List.mem_cons.mp hk' with rfl | hk'
      · exact Nat.le_refl _
      · exact hpw.1 k' hk'
    · rw [List.find?_cons_of_neg (p := fun x : Str => List.isPrefixOf x text) _ hp] at hf
      rcases List.mem_cons.mp hk' with rfl | hk'
      · exact absurd hpre hp
      · exact ih hpw.2 hf k' hk' hpre

theorem regexpMatch_cons (x : Str) (xs : List Str) (text : Str) :
    regexpMatch (x :: xs) text = (x :: xs).find? (fun k => k.isPrefixOf text) := rfl

/-! Claim C1 -/

/-- C1: over any loaded table, an anchored match of the precompiled
descending-length alternation always returns a table key that is a literal
prefix of the remaining text and whose code-point length is maximal among all
such keys; concretely, `general_trans` of `"abc"` over the table
`{"a" ↦ "x", "ab" ↦ "y"}` emits the target of `"ab"` followed by the
pass-through of `"c"` (tallied unmatched), never the target of `"a"`. -/
theorem longest_match_claim (ks : List Str) (text k : Str)
    (hne : ks ≠ []) (hm : regexpMatch (sortedGraphemes ks) text = some k) :
    (k ∈ ks ∧ k.isPrefixOf text = true ∧
      ∀ k' ∈ ks, k'.isPrefixOf text = true → k'.length ≤ k.length)
    ∧ general_trans ⟨id, id, none, [(strL "a", [strL "x"]), (strL "ab", [strL "y"])], []⟩
        (fun _ => true) [] (strL "abc") = some (strL "yc", [('c', 1)]) := by
  constructor
  · obtain ⟨a, l, hS⟩ := List.exists_cons_of_ne_nil (sortedGraphemes_ne_nil hne)
    rw [hS, regexpMatch_cons] at hm
    have hmem : k ∈ sortedGraphemes ks := by
      rw [hS]; exact List.mem_of_find?_eq_some hm
    have hpw := pairwise_sortedGraphemes ks
    rw [hS] at hpw
    refine ⟨mem_sortedGraphemes.mp hmem,
      List.find?_some (p := fun x : Str => List.isPrefixOf x text) hm, ?_⟩
    intro k' hk' hpre
    exact find?_isPrefixOf_maximal hpw hm k' (hS ▸ mem_sortedGraphemes.mpr hk') hpre
  · decide

/-- Witness for C1 at the table `{"a", "ab"}` and the text `"abc"`, where the
matched key is `"ab"`. -/
theorem longest_match_claim_witness :
    ((strL "ab" ∈ [strL "a", strL "ab"] ∧
        (strL "ab").isPrefixOf (strL "abc") = true ∧
        ∀ k' ∈ [strL "a", strL "ab"],
          k'.isPrefixOf (strL "abc") = true → k'.length ≤ (strL "ab").length)
      ∧ general_trans ⟨id, id, none, [(strL "a", [strL "x"]), (strL "ab", [strL "y"])], []⟩
          (fun _ => true) [] (strL "abc") = some (strL "yc", [('c', 1)])) :=
  longest_match_claim [strL "a", strL "ab"] (strL "abc") (strL "ab")
    (by decide) (by decide)

/-! Claim C3 -/

/-- C3: matching is case-sensitive: any key returned by the anchored matcher is
a code-point-exact prefix of the text (no case folding is applied anywhere
between input and lookup), and over a table whose keys `"a"` and `"A"` differ
only in case, the input `"aA"` maps to the target of `"a"` followed by the
target of `"A"`, and the input `"A"` resolves through the entry for `"A"`,
never through the entry for `"a"`. -/
theorem case_sensitive_claim (ks : List Str) (text k : Str)
    (hne : ks ≠ []) (hm : regexpMatch (sortedGraphemes ks) text = some k) :
    (k ∈ ks ∧ k.isPrefixOf text = true)
    ∧ general_trans ⟨id, id, none, [(strL "a", [strL "x"]), (strL "A", [strL "Y"])], []⟩
        (fun _ => true) [] (strL "aA") = some (strL "xY", [])
    ∧ general_trans ⟨id, id, none, [(strL "a", [strL "x"]), (strL "A", [strL "Y"])], []⟩
        (fun _ => true) [] (strL "A") = some (strL "Y", []) := by
  refine ⟨?_, by decide, by decide⟩
  obtain ⟨a, l, hS⟩ := List.exists_cons_of_ne_nil (sortedGraphemes_ne_nil hne)
  rw [hS, regexpMatch_cons] at hm
  have hmem : k ∈ sortedGraphemes ks := by
    rw [hS]; exact List.mem_of_find?_eq_some hm
  exact ⟨mem_sortedGraphemes.mp hmem,
    List.find?_some (p := fun x : Str => List.isPrefixOf x text) hm⟩

/-- Witness for C3 at the mixed-case table `{"a", "A"}` and the text `"A"`,
where the matched key is `"A"` itself. -/
theorem case_sensitive_claim_witness :
    ((strL "A" ∈ [strL "a", strL "A"] ∧ (strL "A").isPrefixOf (strL "A") = true)
      ∧ general_trans ⟨id, id, none, [(strL "a", [strL "x"]), (strL "A", [strL "Y"])], []⟩
          (fun _ => true) [] (strL "aA") = some (strL "xY", [])
      ∧ general_trans ⟨id, id, none, [(strL "a", [strL "x"]), (strL "A", [strL "Y"])], []⟩
          (fun _ => true) [] (strL "A") = some (strL "Y", [])) :=
  case_sensitive_claim [strL "a", strL "A"] (strL "A") (strL "A")
    (by decide) (by decide)

/-! Claim C2 -/

/-- C2: whenever the tally left by tokenization, restricted to non-space
symbols, is non-empty, `transliterate` raises a `ValueError` carrying exactly
those symbols with their counts, the original input text and the mapping-file
identity, and returns no output string; when the restricted tally is empty the
transliterated string is returned normally. The third conjunct states that the
error's tally holds precisely the non-space entries of the full tally. -/
theorem validation_error_claim (e : Engine) (nils : Tally) (text res : Str)
    (final : Tally)
    (h : general_trans e (fun _ => true) [] text = some (res, final)) :
    (final.filter (fun p => p.1 != ' ') ≠ [] →
      transliterate e nils text =
        some (Except.error ⟨final.filter (fun p => p.1 != ' '), text, e.mapFile⟩, final))
    ∧ (final.filter (fun p => p.1 != ' ') = [] →
      transliterate e nils text = some (Except.ok res, final))
    ∧ (∀ c n, (c, n) ∈ final.filter (fun p => p.1 != ' ') ↔ ((c, n) ∈ final ∧ c ≠ ' ')) := by
  refine ⟨?_, ?_, ?_⟩
  · intro hne
    simp only [transliterate, h, Option.map_some']
    rw [if_neg hne]
  · intro hnil
    simp only [transliterate, h, Option.map_some']
    rw [if_pos hnil]
  · intro c n
    simp [List.mem_filter]

/-- Witness for C2 at the table `{"ka" ↦ "k", "sa" ↦ "s"}` and the input
`"kasaX"`, whose `X` is unmatched: the call raises the error carrying
`{X: 1}`, the input and the mapping file. -/
theorem validation_error_claim_witness :
    (([('X', 1)] : Tally).filter (fun p => p.1 != ' ') ≠ [] →
      transliterate ⟨id, id, none, [(strL "ka", [strL "k"]), (strL "sa", [strL "s"])], strL "m.csv"⟩
          [] (strL "kasaX") =
        some (Except.error ⟨(([('X', 1)] : Tally).filter (fun p => p.1 != ' ')),
          strL "kasaX", strL "m.csv"⟩, [('X', 1)]))
    ∧ ((([('X', 1)] : Tally).filter (fun p => p.1 != ' ')) = [] →
      transliterate ⟨id, id, none, [(strL "ka", [strL "k"]), (strL "sa", [strL "s"])], strL "m.csv"⟩
          [] (strL "kasaX") = some (Except.ok (strL "ksX"), [('X', 1)]))
    ∧ (∀ c n, (c, n) ∈ (([('X', 1)] : Tally).filter (fun p => p.1 != ' ')) ↔
        ((c, n) ∈ ([('X', 1)] : Tally) ∧ c ≠ ' ')) :=
  validation_error_claim
    ⟨id, id, none, [(strL "ka", [strL "k"]), (strL "sa", [strL "s"])], strL "m.csv"⟩
    [] (strL "kasaX") (strL "ksX") [('X', 1)] (by decide)

/-! Claim C5 -/

/-- C5 counterexample: the claim fails on the `CustomEpitran` variant, whose
inherited `transliterate` (modelled by `customTransliterate`) performs no
clearing: starting an instance with table `{"a" ↦ "x"}`, a first call on `"b"`
leaves the instance tally `{b: 1}`, and a second, independent call on `"c"`
ends with the instance tally `{b: 1, c: 1}` — the count of `b`, a symbol only
of the first call's input, is still 1 rather than 0, so the tally inspected at
the end of the second call does not reflect only that call's input. -/
theorem tally_scope_counterexample :
    customTransliterate ⟨id, id, none, [(strL "a", [strL "x"])], []⟩ [] (strL "b")
      = some (strL "b", [('b', 1)])
    ∧ customTransliterate ⟨id, id, none, [(strL "a", [strL "x"])], []⟩ [('b', 1)] (strL "c")
      = some (strL "c", [('b', 1), ('c', 1)])
    ∧ tallyGet [('b', 1), ('c', 1)] 'b' = 1 := by
  refine ⟨by decide, by decide, by decide⟩

/-- C5 amended: the validating `OpenJTalkLabelEpitran.transliterate` clears the
instance tally at the start of every call, so its outcome (result, raised
error, and the tally it leaves) is independent of whatever tally earlier calls
left on the instance; the `CustomEpitran` variant's inherited `transliterate`,
by contrast, runs the tokenization loop directly on the prior instance tally,
so its counts accumulate across calls (that variant never reports them). -/
theorem tally_scope_claim (e : Engine) (nils : Tally) (text : Str) :
    transliterate e nils text = transliterate e [] text
    ∧ customTransliterate e nils text = general_trans e (fun _ => true) nils text :=
  ⟨rfl, rfl⟩

/-! Claim C9 -/

theorem general_trans_nil (e : Engine) (filterF : Str × Bool → Bool)
    (nils : Tally) (hnfd : e.nfd [] = []) (hpost : ∀ f, e.post = some f → f [] = [])
    (hnfc : e.nfc [] = []) :
    general_trans e filterF nils [] = some ([], nils) := by
  cases hp : e.post with
  | none =>
    simp [general_trans, hnfd, transLoop, joinTargets, applyPost, hp, hnfc]
  | some f =>
    simp [general_trans, hnfd, transLoop, joinTargets, applyPost, hp, hpost f hp, hnfc]

/-- C9: transliterating the empty string succeeds under both the validating
engine (`transliterate`) and the non-validating inherited variant
(`customTransliterate`), returns the empty string, and leaves the
unmatched-symbol tally empty, given that normalization and the optional
post-processor preserve the empty string. -/
theorem empty_input_claim (e : Engine) (nils : Tally)
    (hnfd : e.nfd [] = []) (hpost : ∀ f, e.post = some f → f [] = [])
    (hnfc : e.nfc [] = []) :
    transliterate e nils [] = some (Except.ok [], [])
    ∧ customTransliterate e [] [] = some ([], []) := by
  constructor
  · simp [transliterate, general_trans_nil e (fun _ => true) [] hnfd hpost hnfc]
  · exact general_trans_nil e (fun _ => true) [] hnfd hpost hnfc

/-- Witness for C9 at a concrete engine with identity normalizers and no
post-processor. -/
theorem empty_input_claim_witness :
    transliterate ⟨id, id, none, [(strL "a", [strL "x"])], []⟩ [('q', 3)] []
      = some (Except.ok [], [])
    ∧ customTransliterate ⟨id, id, none, [(strL "a", [strL "x"])], []⟩ [] []
      = some ([], []) :=
  empty_input_claim ⟨id, id, none, [(strL "a", [strL "x"])], []⟩ [('q', 3)]
    rfl (fun f h => nomatch h) rfl

/-! Claim C10 -/

theorem transLoop_isSome (keys : List Str) (g2p : List (Str × List Str))
    (hk : ∀ k ∈ keys, k ≠ []) :
    ∀ (fuel : Nat) (text : Str) (nils : Tally), text.length ≤ fuel →
      (transLoop keys g2p fuel text nils).isSome := by
  intro fuel
  induction fuel with
  | zero =>
    intro text nils hlen
    have htext : text = [] := List.eq_nil_of_length_eq_zero (Nat.le_zero.mp hlen)
    subst htext
    simp [transLoop]
  | succ n ih =>
    intro text nils hlen
    match text with
    | [] => simp [transLoop]
    | c :: rest =>
      cases hm : regexpMatch keys (c :: rest) with
      | none =>
        have := ih rest (bump nils c) (Nat.le_of_succ_le_succ hlen)
        simp only [transLoop, hm, Option.isSome_map']
        exact this
      | some source =>
        have hsrc : 1 ≤ source.length := by
          cases keys with
          | nil =>
            simp only [regexpMatch] at hm
            by_cases hc : c = '\n'
            · rw [if_pos hc] at hm; cases hm
            · rw [if_neg hc] at hm
              injection hm with hm
              subst hm
              exact Nat.le_refl 1
          | cons k0 ks =>
            rw [regexpMatch_cons] at hm
            have hmem := List.mem_of_find?_eq_some hm
            have hne := hk source hmem
            exact Nat.succ_le_of_lt (List.length_pos.mpr hne)
        have hdrop : ((c :: rest).drop source.length).length ≤ n := by
          rw [List.length_drop]
          have h1 : (c :: rest).length ≤ n + 1 := hlen
          omega
        have := ih ((c :: rest).drop source.length) nils hdrop
        simp only [transLoop, hm, Option.isSome_map']
        exact this

/-- C10: under the precondition that every key of the loaded table is
non-empty, the tokenization loop terminates on every input: a fuel budget of
one step per remaining character suffices, because each iteration consumes at
least one character (the matched non-empty key's length on a hit, exactly one
character on a miss), so `general_trans` always produces a result. -/
theorem termination_claim (e : Engine) (filterF : Str × Bool → Bool)
    (nils : Tally) (text : Str)
    (hk : ∀ k ∈ e.g2p.map Prod.fst, k ≠ []) :
    (general_trans e filterF nils text).isSome := by
  have hk' : ∀ k ∈ e.keys, k ≠ [] := fun k hkm => hk k (mem_sortedGraphemes.mp hkm)
  have h := transLoop_isSome e.keys e.g2p hk' (e.nfd text).length (e.nfd text) nils
    (Nat.le_refl _)
  obtain ⟨r, hr⟩ := Option.isSome_iff_exists.mp h
  simp [general_trans, hr]

/-- Witness for C10 at a concrete table with the non-empty keys `"a"`, `"bc"`
and the input `"abcd"`. -/
theorem termination_claim_witness :
    (general_trans ⟨id, id, none, [(strL "a", [strL "x"]), (strL "bc", [strL "y"])], []⟩
      (fun _ => true) [] (strL "abcd")).isSome :=
  termination_claim ⟨id, id, none, [(strL "a", [strL "x"]), (strL "bc", [strL "y"])], []⟩
    (fun _ => true) [] (strL "abcd") (by decide)

/-! Claim C4 -/

theorem filter_const_true {α : Type} (l : List α) : l.filter (fun _ => true) = l := by
  induction l with
  | nil => rfl
  | cons a t ih => simp [List.filter_cons, ih]

/-- C4 counterexample: with an empty table there is no table key at all, so at
every position no table key is a prefix of the remaining text; yet the
tokenizer's fallback pattern `(.)` matches the single character `b`, which is
emitted flagged as matched (True, not unmatched) and the unmatched-symbol
tally is left untouched, contradicting the claimed miss behavior. -/
theorem miss_step_counterexample :
    transLoop (Engine.keys ⟨id, id, none, [], []⟩) [] 1 (strL "b") []
      = some ([(strL "b", true)], [])
    ∧ (some ([(strL "b", true)], ([] : Tally))
        ≠ some ([(strL "b", false)], ([('b', 1)] : Tally))) := by
  refine ⟨by decide, by decide⟩

/-- C4 amended: provided the table has at least one key, at every position
where no table key is a prefix of the remaining text the tokenizer consumes
exactly one character, emits it unchanged as an unmatched pair whose target is
that character, and increments exactly that character's tally entry by one
(all other entries unchanged); and with validation disabled (no error check)
and no post-processing configured, any such character emitted by the run
appears verbatim in the concatenated token-target string, of which the final
output is the recomposition (`NFC`). -/
theorem miss_step_claim (ks : List Str) (g2p : List (Str × List Str))
    (c : Char) (rest : Str) (nils : Tally) (fuel : Nat)
    (e : Engine) (text : Str) (toks : List (Str × Bool)) (tally : Tally)
    (hne : ks ≠ [])
    (hmiss : ∀ k ∈ ks, k.isPrefixOf (c :: rest) = false)
    (hpost : e.post = none)
    (hrun : transLoop e.keys e.g2p (e.nfd text).length (e.nfd text) [] = some (toks, tally))
    (htok : ([c], false) ∈ toks) :
    transLoop ks g2p (fuel + 1) (c :: rest) nils =
      (transLoop ks g2p fuel rest (bump nils c)).map
        (fun r => (([c], false) :: r.1, r.2))
    ∧ tallyGet (bump nils c) c = tallyGet nils c + 1
    ∧ (∀ c', c' ≠ c → tallyGet (bump nils c) c' = tallyGet nils c')
    ∧ general_trans e (fun _ => true) [] text = some (e.nfc (joinTargets toks), tally)
    ∧ c ∈ joinTargets toks := by
  have hm : regexpMatch ks (c :: rest) = none := by
    obtain ⟨a, l, rfl⟩ := List.exists_cons_of_ne_nil hne
    rw [regexpMatch_cons]
    rw [List.find?_eq_none]
    intro x hx
    simp [hmiss x hx]
  refine ⟨?_, tallyGet_bump_self nils c, fun c' hc' => tallyGet_bump_ne nils c c' hc', ?_, ?_⟩
  · simp only [transLoop, hm]
  · simp [general_trans, hrun, hpost, applyPost, filter_const_true]
  · exact List.mem_flatten_of_mem (List.mem_map_of_mem Prod.fst htok) (List.mem_singleton.mpr rfl)

/-- Witness for C4's amended claim: table `{"a" ↦ "x"}`, text `"ab"`; at the
position holding `"b"` no key is a prefix, one character is consumed, tallied
once, and `b` appears verbatim in the concatenated output `"xb"`. -/
theorem miss_step_claim_witness :
    transLoop [strL "a"] [(strL "a", [strL "x"])] 1 (strL "b") [] =
      (transLoop [strL "a"] [(strL "a", [strL "x"])] 0 (strL "") (bump [] 'b')).map
        (fun r => ((strL "b", false) :: r.1, r.2))
    ∧ tallyGet (bump [] 'b') 'b' = tallyGet [] 'b' + 1
    ∧ (∀ c', c' ≠ 'b' → tallyGet (bump [] 'b') c' = tallyGet [] c')
    ∧ general_trans ⟨id, id, none, [(strL "a", [strL "x"])], []⟩ (fun _ => true) []
        (strL "ab")
        = some ((⟨id, id, none, [(strL "a", [strL "x"])], []⟩ : Engine).nfc
            (joinTargets [(strL "x", true), (strL "b", false)]), [('b', 1)])
    ∧ 'b' ∈ joinTargets [(strL "x", true), (strL "b", false)] :=
  miss_step_claim [strL "a"] [(strL "a", [strL "x"])] 'b' (strL "") [] 0
    ⟨id, id, none, [(strL "a", [strL "x"])], []⟩ (strL "ab")
    [(strL "x", true), (strL "b", false)] [('b', 1)]
    (by decide) (by decide) rfl (by decide) (by decide)

/-! Claim C7 -/

/-- C7 counterexample: a missing backing file does yield an empty table, but
over the empty table the input `"a"` is not marked unmatched: the fallback
pattern matches `a` as a (pass-through) hit, the unmatched tally stays empty,
and the validating call even succeeds, contradicting the claim that every
character is recorded in the unmatched tally. -/
theorem empty_table_counterexample :
    load_g2p_map_file id false false [(strL "a", strL "x")] = []
    ∧ transliterate ⟨id, id, none, [], strL "missing.csv"⟩ [] (strL "a")
        = some (Except.ok (strL "a"), [])
    ∧ tallyGet [] 'a' = 0 := by
  refine ⟨by decide, by rfl, by decide⟩

theorem transLoop_no_keys :
    ∀ (text : Str) (nils : Tally), (∀ c ∈ text, c ≠ '\n') →
      transLoop [] [] text.length text nils
        = some (text.map (fun c => ([c], true)), nils)
  | [], nils, _ => rfl
  | c :: rest, nils, h => by
    have hc : c ≠ '\n' := h c (List.mem_cons_self c rest)
    have ih := transLoop_no_keys rest nils (fun x hx => h x (List.mem_cons_of_mem c hx))
    simp only [List.length_cons, transLoop, regexpMatch, if_neg hc]
    simp [lookupTarget, lookupG2p, ih]

theorem flatten_map_singleton (text : Str) :
    (text.map (fun c => [c])).flatten = text := by
  induction text with
  | nil => rfl
  | cons c rest ih => simp [ih]

/-- C7 amended: constructing the engine from a missing backing mapping file
yields an empty table rather than an error, and the empty table is a valid
degenerate state; however, its tokenizer does not mark input characters as
unmatched: the fallback single-character pattern consumes every character of
any newline-free input one at a time as a matched pass-through token (target
equal to the character), the unmatched-symbol tally is left untouched, and the
output is just the (re)normalized input. -/
theorem empty_table_claim (nfd : Str → Str) (tones : Bool) (rows : List (Str × Str))
    (e : Engine) (text : Str) (nils : Tally)
    (hg : e.g2p = [])
    (hnl : ∀ c ∈ e.nfd text, c ≠ '\n') :
    load_g2p_map_file nfd tones false rows = []
    ∧ transLoop e.keys e.g2p (e.nfd text).length (e.nfd text) nils
        = some ((e.nfd text).map (fun c => ([c], true)), nils)
    ∧ general_trans e (fun _ => true) nils text
        = some (e.nfc (applyPost e.post (e.nfd text)), nils) := by
  have hkeys : e.keys = [] := by simp [Engine.keys, hg, sortedGraphemes]
  have hloop := transLoop_no_keys (e.nfd text) nils hnl
  refine ⟨rfl, ?_, ?_⟩
  · rw [hkeys, hg]
    exact hloop
  · rw [general_trans, hkeys, hg]
    simp only [hloop, Option.map_some']
    rw [filter_const_true]
    have : joinTargets ((e.nfd text).map (fun c => ([c], true))) = e.nfd text := by
      rw [joinTargets, List.map_map]
      exact flatten_map_singleton (e.nfd text)
    rw [this]

/-- Witness for C7's amended claim at the empty-table engine and the input
`"ab"`. -/
theorem empty_table_claim_witness :
    load_g2p_map_file id false false [(strL "a", strL "x")] = []
    ∧ transLoop (Engine.keys ⟨id, id, none, [], strL "missing.csv"⟩) [] (strL "ab").length
        (strL "ab") []
        = some ((strL "ab").map (fun c => ([c], true)), [])
    ∧ general_trans ⟨id, id, none, [], strL "missing.csv"⟩ (fun _ => true) [] (strL "ab")
        = some ((strL "ab"), []) :=
  empty_table_claim id false [(strL "a", strL "x")]
    ⟨id, id, none, [], strL "missing.csv"⟩ (strL "ab") [] rfl (by decide)

/-! Claim C8 -/

theorem lookupG2p_insertG2p :
    ∀ (acc : List (Str × List Str)) (k t k' : Str),
      lookupG2p (insertG2p acc k t) k' =
        if k = k' then lookupG2p acc k ++ [t] else lookupG2p acc k'
  | [], k, t, k' => by
    by_cases h : k = k'
    · subst h; simp [insertG2p, lookupG2p]
    · simp [insertG2p, lookupG2p, h]
  | (k0, ts0) :: rest, k, t, k' => by
    by_cases hk0 : k0 = k
    · subst hk0
      by_cases h : k0 = k'
      · subst h; simp [insertG2p, lookupG2p]
      · simp [insertG2p, lookupG2p, h]
    · by_cases h : k0 = k'
      · subst h
        simp [insertG2p, lookupG2p, hk0, Ne.symm hk0]
      · simp [insertG2p, lookupG2p, hk0, h, lookupG2p_insertG2p rest k t k']

theorem lookupG2p_load_aux (nfd : Str → Str) (tones : Bool) :
    ∀ (rows : List (Str × Str)) (acc : List (Str × List Str)) (k : Str),
      lookupG2p
          (rows.foldl (fun acc r => insertG2p acc (nfd r.1) (procPhon nfd tones r.2)) acc) k
        = lookupG2p acc k
            ++ (rows.filter (fun r => nfd r.1 == k)).map (fun r => procPhon nfd tones r.2)
  | [], acc, k => by simp
  | (g, p) :: rest, acc, k => by
    simp only [List.foldl_cons]
    rw [lookupG2p_load_aux nfd tones rest, lookupG2p_insertG2p]
    by_cases h : nfd g = k
    · rw [if_pos h]
      have hb : (nfd g == k) = true := beq_iff_eq.mpr h
      simp [List.filter_cons, hb, h]
    · rw [if_neg h]
      have hb : (nfd g == k) = false := by
        simpa using h
      simp [List.filter_cons, hb]

theorem lookupG2p_load (nfd : Str → Str) (tones : Bool) (rows : List (Str × Str))
    (k : Str) :
    lookupG2p (load_g2p_map nfd tones rows) k
      = (rows.filter (fun r => nfd r.1 == k)).map (fun r => procPhon nfd tones r.2) := by
  rw [load_g2p_map, lookupG2p_load_aux]
  simp [lookupG2p]

theorem insertG2p_forall {P Q : Str → Prop} :
    ∀ {acc : List (Str × List Str)} {k t : Str},
      (∀ q ∈ acc, P q.1 ∧ ∀ u ∈ q.2, Q u) → P k → Q t →
      ∀ q ∈ insertG2p acc k t, P q.1 ∧ ∀ u ∈ q.2, Q u := by
  intro acc
  induction acc with
  | nil =>
    intro k t _ hk ht q hq
    simp only [insertG2p, List.mem_singleton] at hq
    subst hq
    exact ⟨hk, fun u hu => by simpa using (List.mem_singleton.mp hu) ▸ ht⟩
  | cons hd rest ih =>
    intro k t hacc hk ht q hq
    obtain ⟨k0, ts0⟩ := hd
    by_cases h : k0 = k
    · subst h
      rw [insertG2p, if_pos rfl] at hq
      rcases List.mem_cons.mp hq with rfl | hq
      · refine ⟨(hacc (k0, ts0) (List.mem_cons_self _ _)).1, fun u hu => ?_⟩
        rcases List.mem_append.mp hu with hu | hu
        · exact (hacc (k0, ts0) (List.mem_cons_self _ _)).2 u hu
        · exact (List.mem_singleton.mp hu) ▸ ht
      · exact hacc q (List.mem_cons_of_mem _ hq)
    · rw [insertG2p, if_neg h] at hq
      rcases List.mem_cons.mp hq with rfl | hq
      · exact hacc (k0, ts0) (List.mem_cons_self _ _)
      · exact ih (fun q hq => hacc q (List.mem_cons_of_mem _ hq)) hk ht q hq

theorem load_g2p_forall {P Q : Str → Prop} (nfd : Str → Str) (tones : Bool)
    (hP : ∀ s, P (nfd s)) (hQ : ∀ s, Q (procPhon nfd tones s)) :
    ∀ (rows : List (Str × Str)) (acc : List (Str × List Str)),
      (∀ q ∈ acc, P q.1 ∧ ∀ u ∈ q.2, Q u) →
      ∀ q ∈ rows.foldl (fun acc r => insertG2p acc (nfd r.1) (procPhon nfd tones r.2)) acc,
        P q.1 ∧ ∀ u ∈ q.2, Q u
  | [], _, hacc => hacc
  | r :: rest, acc, hacc =>
    load_g2p_forall nfd tones hP hQ rest _
      (insertG2p_forall hacc (hP r.1) (hQ r.2))

theorem toneMarker_not_mem_stripTones {m : Char} (hm : m ∈ toneMarkers) (s : Str) :
    m ∉ stripTones s := by
  intro h
  have h2 := (List.mem_filter.mp h).2
  rw [Bool.not_eq_true'] at h2
  have h3 : toneMarkers.contains m = true :=
    List.contains_iff_exists_mem_beq.mpr ⟨m, hm, beq_iff_eq.mpr rfl⟩
  rw [h3] at h2
  cases h2

/-- C8: with tone tracking disabled, every stored key and stored target of the
loaded table is a fixed point of NFD normalization (given that NFD is
idempotent and that deleting tone letters preserves NFD-normal form), no
stored target contains a tone-marker code point; rows sharing a source have
their processed targets appended in file order (the lookup list enumerates
them in row order), and the tokenizer's target selection always takes the
first-loaded target of a source. -/
theorem load_normalization_claim (nfd : Str → Str) (rows : List (Str × Str)) (k : Str)
    (hIdem : ∀ s, nfd (nfd s) = nfd s)
    (hStrip : ∀ s, nfd (stripTones (nfd s)) = stripTones (nfd s)) :
    lookupG2p (load_g2p_map nfd false rows) k
      = (rows.filter (fun r => nfd r.1 == k)).map (fun r => stripTones (nfd r.2))
    ∧ (∀ q ∈ load_g2p_map nfd false rows,
        nfd q.1 = q.1 ∧ ∀ u ∈ q.2, nfd u = u ∧ ∀ m ∈ toneMarkers, m ∉ u)
    ∧ (∀ src t ts, lookupG2p (load_g2p_map nfd false rows) src = t :: ts →
        lookupTarget (load_g2p_map nfd false rows) src = t) := by
  refine ⟨?_, ?_, ?_⟩
  · have := lookupG2p_load nfd false rows k
    simpa [procPhon] using this
  · intro q hq
    refine load_g2p_forall (P := fun x => nfd x = x)
      (Q := fun u => nfd u = u ∧ ∀ m ∈ toneMarkers, m ∉ u) nfd false
      (fun s => hIdem s) ?_ rows [] (by simp) q hq
    intro s
    refine ⟨?_, ?_⟩
    · simpa [procPhon] using hStrip s
    · intro m hm
      simp only [procPhon, if_neg Bool.false_ne_true]
      exact toneMarker_not_mem_stripTones hm (nfd s)
  · intro src t ts h
    rw [lookupTarget, h]

/-- Witness for C8 at the identity normalizer and the two-row file
`[("a", "x˥"), ("a", "z")]` sharing the source `"a"`: the stored targets are
`["x", "z"]` in file order (the tone letter stripped), and tokenization uses
`"x"`. -/
theorem load_normalization_claim_witness :
    lookupG2p (load_g2p_map id false [(strL "a", strL "x˥"), (strL "a", strL "z")]) (strL "a")
      = ([(strL "a", strL "x˥"), (strL "a", strL "z")].filter
          (fun r => id r.1 == strL "a")).map (fun r => stripTones (id r.2))
    ∧ (∀ q ∈ load_g2p_map id false [(strL "a", strL "x˥"), (strL "a", strL "z")],
        id q.1 = q.1 ∧ ∀ u ∈ q.2, id u = u ∧ ∀ m ∈ toneMarkers, m ∉ u)
    ∧ (∀ src t ts,
        lookupG2p (load_g2p_map id false [(strL "a", strL "x˥"), (strL "a", strL "z")]) src
          = t :: ts →
        lookupTarget (load_g2p_map id false [(strL "a", strL "x˥"), (strL "a", strL "z")]) src
          = t) :=
  load_normalization_claim id [(strL "a", strL "x˥"), (strL "a", strL "z")] (strL "a")
    (fun s => rfl) (fun s => rfl)

/-! Claim C6 -/

theorem splitOnSpace_ne_nil : ∀ (s : Str), splitOnSpace s ≠ []
  | [] => by simp [splitOnSpace]
  | c :: rest => by
    by_cases h : c = ' '
    · simp [splitOnSpace, h]
    · rw [splitOnSpace, if_neg h]
      cases hs : splitOnSpace rest with
      | nil => simp
      | cons p ps => simp

theorem splitOnSpace_append :
    ∀ (l r : Str), (∀ c ∈ l, c ≠ ' ') →
      splitOnSpace (l ++ r) = (splitOnSpace r).modifyHead (fun p => l ++ p)
  | [], r, _ => by
    obtain ⟨a, t, heq⟩ := List.exists_cons_of_ne_nil (splitOnSpace_ne_nil r)
    simp [heq]
  | c :: l, r, h => by
    have hc : c ≠ ' ' := h c (List.mem_cons_self c l)
    have ih := splitOnSpace_append l r (fun x hx => h x (List.mem_cons_of_mem c hx))
    obtain ⟨a, t, heq⟩ := List.exists_cons_of_ne_nil (splitOnSpace_ne_nil r)
    rw [List.cons_append, splitOnSpace, if_neg hc, ih, heq]
    simp

theorem splitOnSpace_joinSpace :
    ∀ (labels : List Str), labels ≠ [] → (∀ l ∈ labels, ∀ c ∈ l, c ≠ ' ') →
      splitOnSpace (joinSpace labels) = labels
  | [], h, _ => absurd rfl h
  | [l], _, hwf => by
    rw [joinSpace]
    have h1 := splitOnSpace_append l [] (hwf l (List.mem_singleton.mpr rfl))
    simpa [splitOnSpace] using h1
  | l :: t :: rest, _, hwf => by
    rw [joinSpace,
      splitOnSpace_append l (' ' :: joinSpace (t :: rest)) (hwf l (List.mem_cons_self _ _))]
    have ih := splitOnSpace_joinSpace (t :: rest) (by simp)
      (fun x hx => hwf x (List.mem_cons_of_mem _ hx))
    simp [splitOnSpace, ih]

theorem runsSplit_ne_nil (d : Str → Bool) : ∀ (ls : List Str), runsSplit d ls ≠ []
  | [] => by simp [runsSplit]
  | x :: xs => by
    by_cases h : d x
    · simp [runsSplit, h]
    · obtain ⟨a, t, heq⟩ := List.exists_cons_of_ne_nil (runsSplit_ne_nil d xs)
      simp [runsSplit, h, heq]

theorem splitLoop_spec :
    ∀ (ls : List Str) (cur : List Str),
      splitLoop ls cur
        = (((runsSplit isSilence ls).modifyHead (fun r => cur ++ r)).filter
            (fun r => !r.isEmpty)).map joinSpace
  | [], cur => by
    by_cases h : cur.isEmpty
    · have hc : cur = [] := List.isEmpty_iff.mp h
      subst hc
      simp [splitLoop, runsSplit]
    · rw [splitLoop, if_neg h]
      simp only [runsSplit, List.modifyHead_cons, List.append_nil]
      rw [List.filter_cons]
      simp [h]
  | p :: rest, cur => by
    by_cases h : isSilence p
    · have hmod : (runsSplit isSilence rest).modifyHead (fun r => [] ++ r)
          = runsSplit isSilence rest := by
        obtain ⟨a, t, heq⟩ := List.exists_cons_of_ne_nil (runsSplit_ne_nil isSilence rest)
        rw [heq]
        simp
      have hrs : runsSplit isSilence (p :: rest) = [] :: runsSplit isSilence rest := by
        rw [runsSplit, if_pos h]
      rw [splitLoop, if_pos h, splitLoop_spec rest [], hmod, hrs, List.modifyHead_cons,
        List.append_nil, List.filter_cons]
      by_cases hc : cur.isEmpty
      · have hcc : cur = [] := List.isEmpty_iff.mp hc
        subst hcc
        simp
      · have hcc : cur.isEmpty = false := by
          simpa using hc
        rw [hcc]
        simp [hcc]
    · rw [splitLoop, if_neg h, splitLoop_spec rest (cur ++ [p])]
      simp only [runsSplit, if_neg h]
      obtain ⟨a, t, heq⟩ := List.exists_cons_of_ne_nil (runsSplit_ne_nil isSilence rest)
      rw [heq]
      simp only [List.modifyHead_cons]
      rw [List.append_cons cur p a]

theorem split_by_silence_spec (labels : List Str) (hne : labels ≠ [])
    (hwf : ∀ l ∈ labels, ∀ c ∈ l, c ≠ ' ') :
    split_by_silence_markers (joinSpace labels)
      = (specSegments isSilence labels).map joinSpace := by
  rw [split_by_silence_markers, splitOnSpace_joinSpace labels hne hwf, splitLoop_spec]
  obtain ⟨a, t, heq⟩ := List.exists_cons_of_ne_nil (runsSplit_ne_nil isSilence labels)
  rw [specSegments, heq]
  simp

theorem runsSplit_forall (d : Str → Bool) :
    ∀ (ls : List Str) (r : List Str), r ∈ runsSplit d ls →
      ∀ x ∈ r, d x = false ∧ x ∈ ls
  | [], r, hr, x, hx => by
    simp only [runsSplit, List.mem_singleton] at hr
    subst hr
    cases hx
  | y :: ys, r, hr, x, hx => by
    by_cases h : d y
    · rw [runsSplit, if_pos h] at hr
      rcases List.mem_cons.mp hr with rfl | hr
      · cases hx
      · have := runsSplit_forall d ys r hr x hx
        exact ⟨this.1, List.mem_cons_of_mem _ this.2⟩
    · rw [runsSplit, if_neg h] at hr
      obtain ⟨a, t, heq⟩ := List.exists_cons_of_ne_nil (runsSplit_ne_nil d ys)
      rw [heq, List.modifyHead_cons] at hr
      rcases List.mem_cons.mp hr with rfl | hr
      · rcases List.mem_cons.mp hx with rfl | hx
        · exact ⟨by simpa using h, List.mem_cons_self _ _⟩
        · have := runsSplit_forall d ys a (heq ▸ List.mem_cons_self a t) x hx
          exact ⟨this.1, List.mem_cons_of_mem _ this.2⟩
      · have := runsSplit_forall d ys r (heq ▸ List.mem_cons_of_mem a hr) x hx
        exact ⟨this.1, List.mem_cons_of_mem _ this.2⟩

theorem joinSpace_ne_nil :
    ∀ (r : List Str), r ≠ [] → (∀ l ∈ r, l ≠ []) → joinSpace r ≠ []
  | [], h, _ => absurd rfl h
  | [l], _, hl => by
    rw [joinSpace]
    exact hl l (List.mem_singleton.mpr rfl)
  | l :: t :: rest, _, _ => by
    rw [joinSpace]
    exact List.append_ne_nil_of_right_ne_nil l (by simp)

theorem removeSpaces_joinSpace :
    ∀ (r : List Str), (∀ l ∈ r, ∀ c ∈ l, c ≠ ' ') →
      removeSpaces (joinSpace r) = r.flatten
  | [], _ => rfl
  | [l], h => by
    rw [joinSpace]
    have hall : ∀ c ∈ l, (c != ' ') = true :=
      fun c hc => bne_iff_ne.mpr (h l (List.mem_singleton.mpr rfl) c hc)
    simp [removeSpaces, List.filter_eq_self.mpr hall]
  | l :: t :: rest, h => by
    have hall : ∀ c ∈ l, (c != ' ') = true :=
      fun c hc => bne_iff_ne.mpr (h l (List.mem_cons_self _ _) c hc)
    have ih := removeSpaces_joinSpace (t :: rest)
      (fun x hx => h x (List.mem_cons_of_mem _ hx))
    rw [joinSpace]
    simp only [removeSpaces, List.filter_append, List.filter_cons] at *
    simp [List.filter_eq_self.mpr hall, ih]

theorem ipaSegments_ok (e : Engine) (f : Str → Str) (g : Str → Tally) :
    ∀ (segs : List Str),
      (∀ seg ∈ segs, removeSpaces seg ≠ [] ∧
        transliterate e [] (removeSpaces seg) = some (Except.ok (f seg), g seg)) →
      ipaSegments e segs = some (Except.ok (segs.map f))
  | [], _ => rfl
  | seg :: rest, h => by
    have h1 := h seg (List.mem_cons_self _ _)
    have ih := ipaSegments_ok e f g rest (fun s hs => h s (List.mem_cons_of_mem _ hs))
    rw [ipaSegments, if_neg (by simpa [List.isEmpty_iff] using h1.1), h1.2, ih]
    rfl

/-- C6: for a space-separated string of non-empty, space-free phoneme labels,
`split_by_silence_markers` returns exactly the spec's maximal delimiter-free
runs (each joined back with single spaces): no returned segment is empty or
contains a `pau`/`sil` label, so adjacent, leading or trailing delimiters
produce no empty segment; and `phoneme_labels_to_ipa` joins the per-segment
transliterations with exactly one space between consecutive outputs and no
leading or trailing separator — a single piece joins to itself unchanged and
two pieces join with exactly one space. -/
theorem segmentation_claim (labels : List Str) (e : Engine) (f : Str → Str)
    (g : Str → Tally)
    (hne : labels ≠ [])
    (hlab : ∀ l ∈ labels, l ≠ [])
    (hsp : ∀ l ∈ labels, ∀ c ∈ l, c ≠ ' ')
    (htr : ∀ seg ∈ split_by_silence_markers (joinSpace labels),
        transliterate e [] (removeSpaces seg) = some (Except.ok (f seg), g seg)) :
    split_by_silence_markers (joinSpace labels)
      = (specSegments isSilence labels).map joinSpace
    ∧ (∀ seg ∈ split_by_silence_markers (joinSpace labels),
        seg ≠ [] ∧ ∀ l ∈ splitOnSpace seg, isSilence l = false)
    ∧ phoneme_labels_to_ipa e (joinSpace labels)
        = some (Except.ok (joinSpace
            ((split_by_silence_markers (joinSpace labels)).map f)))
    ∧ (∀ x : Str, joinSpace [x] = x)
    ∧ (∀ x y : Str, joinSpace [x, y] = x ++ ' ' :: y) := by
  have hspec := split_by_silence_spec labels hne hsp
  have hrun : ∀ seg ∈ split_by_silence_markers (joinSpace labels),
      ∃ r, r ∈ runsSplit isSilence labels ∧ r ≠ [] ∧ seg = joinSpace r := by
    intro seg hseg
    rw [hspec] at hseg
    obtain ⟨r, hr, rfl⟩ := List.mem_map.mp hseg
    have hr2 := List.mem_filter.mp hr
    exact ⟨r, hr2.1, by simpa using hr2.2, rfl⟩
  have hrprops : ∀ r, r ∈ runsSplit isSilence labels → r ≠ [] →
      (∀ l ∈ r, l ≠ []) ∧ (∀ l ∈ r, ∀ c ∈ l, c ≠ ' ') ∧
        (∀ l ∈ r, isSilence l = false) := by
    intro r hr _
    refine ⟨fun l hl => hlab l (runsSplit_forall isSilence labels r hr l hl).2,
      fun l hl => hsp l (runsSplit_forall isSilence labels r hr l hl).2,
      fun l hl => (runsSplit_forall isSilence labels r hr l hl).1⟩
  refine ⟨hspec, ?_, ?_, fun x => rfl, fun x y => rfl⟩
  · intro seg hseg
    obtain ⟨r, hr, hrne, rfl⟩ := hrun _ hseg
    obtain ⟨h1, h2, h3⟩ := hrprops r hr hrne
    refine ⟨joinSpace_ne_nil r hrne h1, ?_⟩
    rw [splitOnSpace_joinSpace r hrne h2]
    exact h3
  · rw [phoneme_labels_to_ipa]
    rw [ipaSegments_ok e f g (split_by_silence_markers (joinSpace labels)) ?_]
    · rfl
    · intro seg hseg
      obtain ⟨r, hr, hrne, rfl⟩ := hrun _ hseg
      obtain ⟨h1, h2, _⟩ := hrprops r hr hrne
      refine ⟨?_, htr _ hseg⟩
      rw [removeSpaces_joinSpace r h2]
      obtain ⟨l0, r', rfl⟩ := List.exists_cons_of_ne_nil hrne
      have : l0 ≠ [] := h1 l0 (List.mem_cons_self _ _)
      simp only [List.flatten_cons]
      exact List.append_ne_nil_of_left_ne_nil this _

/-- Witness for C6 at the labels `["k", "a", "pau", "s"]` over the table
`{"ka" ↦ "K", "s" ↦ "S"}`: the segments are `["k a", "s"]` and the joined
result is `"K S"`. -/
theorem segmentation_claim_witness :
    split_by_silence_markers (joinSpace [strL "k", strL "a", strL "pau", strL "s"])
      = (specSegments isSilence [strL "k", strL "a", strL "pau", strL "s"]).map joinSpace
    ∧ (∀ seg ∈ split_by_silence_markers (joinSpace [strL "k", strL "a", strL "pau", strL "s"]),
        seg ≠ [] ∧ ∀ l ∈ splitOnSpace seg, isSilence l = false)
    ∧ phoneme_labels_to_ipa ⟨id, id, none, [(strL "ka", [strL "K"]), (strL "s", [strL "S"])], []⟩
          (joinSpace [strL "k", strL "a", strL "pau", strL "s"])
        = some (Except.ok (joinSpace
            ((split_by_silence_markers
              (joinSpace [strL "k", strL "a", strL "pau", strL "s"])).map
                (fun seg => if seg = strL "k a" then strL "K" else strL "S"))))
    ∧ (∀ x : Str, joinSpace [x] = x)
    ∧ (∀ x y : Str, joinSpace [x, y] = x ++ ' ' :: y) :=
  segmentation_claim [strL "k", strL "a", strL "pau", strL "s"]
    ⟨id, id, none, [(strL "ka", [strL "K"]), (strL "s", [strL "S"])], []⟩
    (fun seg => if seg = strL "k a" then strL "K" else strL "S") (fun _ => [])
    (by decide) (by decide) (by decide)
    (by
      intro seg hseg
      have hs : split_by_silence_markers (joinSpace [strL "k", strL "a", strL "pau", strL "s"])
          = [strL "k a", strL "s"] := by decide
      rw [hs] at hseg
      rcases List.mem_cons.mp hseg with rfl | hseg
      · rfl
      · rcases List.mem_singleton.mp hseg with rfl
        rfl)

end CrossLingual
